import Mathlib

/-!
# Verification of the toy_git object codec

Shallow embedding of `src/toy_git/src/main.rs`: the Blob/Tree/Commit/User
(identity) codec of a git-like object store.  Byte buffers are modelled as
`List Nat` (each element a byte value); Rust `String`s are modelled as their
underlying UTF-8 byte lists, with validity checked by an executable UTF-8
decoder.  Rust panics (out-of-bounds `split_at`, out-of-bounds indexing,
chrono's out-of-bound `FixedOffset::east/west`) are modelled by the
`RunResult.panicked` constructor.
-/

namespace ToyGit

/-- Result of running Rust code that may panic: either a panic, or a value. -/
inductive RunResult (α : Type) where
  | panicked : RunResult α
  | ok : α → RunResult α
  deriving DecidableEq, Repr

/-- Bytes of an ASCII string literal (every char of `s` must be < 0x80,
which holds for all literals used in this file). -/
def strb (s : String) : List Nat := s.data.map Char.toNat

/-- `slice::split(|&b| b == c)` from Rust: split a byte list on a delimiter
byte.  The delimiter is dropped; an empty input yields one empty piece, and
a trailing delimiter yields a trailing empty piece. -/
def splitOnByte (c : Nat) : List Nat → List (List Nat)
  | [] => [[]]
  | b :: r =>
    if b = c then [] :: splitOnByte c r
    else
      match splitOnByte c r with
      | [] => [[b]]
      | h :: t => (b :: h) :: t

/-- `splitn(2, c)`: the bytes before the first occurrence of `c`, and
(when `c` occurs) the bytes after it. -/
def splitn2 (c : Nat) : List Nat → List Nat × Option (List Nat)
  | [] => ([], none)
  | b :: r =>
    if b = c then ([], some r)
    else
      let p := splitn2 c r
      (b :: p.1, p.2)

/-- `str::splitn(3, " ")`: at most three pieces, splitting on a space. -/
def splitn3space (l : List Nat) : List (List Nat) :=
  match splitn2 32 l with
  | (a, none) => [a]
  | (a, some r) =>
    match splitn2 32 r with
    | (b, none) => [a, b]
    | (b, some r2) => [a, b, r2]

/-- ASCII decimal digit. -/
def isDigitB (b : Nat) : Bool := 48 ≤ b && b ≤ 57

/-- Decimal digits (most significant first) of a positive number; the fuel
argument bounds the recursion and any `fuel ≥ n` gives the same result. -/
def natToDecAux : Nat → Nat → List Nat
  | 0, _ => []
  | fuel + 1, n => if n = 0 then [] else natToDecAux fuel (n / 10) ++ [48 + n % 10]

/-- `format!("{}", n)` for an unsigned integer: ASCII decimal digits. -/
def natToDec (n : Nat) : List Nat :=
  if n = 0 then [48] else natToDecAux n n

/-- Value of a list of ASCII digits, most significant first. -/
def decValue (s : List Nat) : Nat := s.foldl (fun a d => a * 10 + (d - 48)) 0

/-- Strip one leading ASCII `+` (byte 43), as integer parsing does. -/
def dropSign43 (s : List Nat) : List Nat :=
  match s with
  | 43 :: r => r
  | _ => s

/-- `str::parse::<usize>()` (64-bit): optional leading `+`, then one or more
ASCII digits, failing on overflow past `2^64 - 1`. -/
def parseUsize (s : List Nat) : Option Nat :=
  let s' := dropSign43 s
  if s' = [] then none
  else if s'.all isDigitB then
    if decValue s' < 2 ^ 64 then some (decValue s') else none
  else none

/-- Signed decimal parse with bounds `lo ≤ v ≤ hi`: optional `+`/`-` sign,
then one or more ASCII digits. -/
def parseIntB (lo hi : Int) (s : List Nat) : Option Int :=
  let (neg, s') : Bool × List Nat := match s with
    | 43 :: r => (false, r)
    | 45 :: r => (true, r)
    | _ => (false, s)
  if s' = [] then none
  else if s'.all isDigitB then
    let v : Int := if neg then -(decValue s' : Int) else (decValue s' : Int)
    if lo ≤ v ∧ v ≤ hi then some v else none
  else none

/-- `str::parse::<i64>()`. -/
def parseI64 (s : List Nat) : Option Int := parseIntB (-(2 ^ 63)) (2 ^ 63 - 1) s

/-- `str::parse::<i32>()`. -/
def parseI32 (s : List Nat) : Option Int := parseIntB (-(2 ^ 31)) (2 ^ 31 - 1) s

/-- UTF-8 continuation byte. -/
def isCont (b : Nat) : Bool := 0x80 ≤ b && b ≤ 0xBF

/-- One step of strict UTF-8 decoding: given a leading byte `b0` and the
remaining bytes `r`, the decoded scalar value and the bytes after it, or
`none` if the sequence is malformed (overlong forms, surrogates and values
above `0x10FFFF` are rejected, exactly as Rust's `String::from_utf8`). -/
def utf8Step (b0 : Nat) (r : List Nat) : Option (Nat × List Nat) :=
  if b0 < 0x80 then some (b0, r)
  else if b0 < 0xC2 then none
  else if b0 ≤ 0xDF then
    match r with
    | [] => none
    | b1 :: r1 =>
      if isCont b1 then some ((b0 - 0xC0) * 64 + (b1 - 0x80), r1)
      else none
  else if b0 ≤ 0xEF then
    match r with
    | b1 :: b2 :: r2 =>
      if ((if b0 = 0xE0 then decide (0xA0 ≤ b1 && b1 ≤ 0xBF)
           else if b0 = 0xED then decide (0x80 ≤ b1 && b1 ≤ 0x9F)
           else isCont b1) && isCont b2) then
        some ((b0 - 0xE0) * 4096 + (b1 - 0x80) * 64 + (b2 - 0x80), r2)
      else none
    | _ => none
  else if b0 ≤ 0xF4 then
    match r with
    | b1 :: b2 :: b3 :: r3 =>
      if ((if b0 = 0xF0 then decide (0x90 ≤ b1 && b1 ≤ 0xBF)
           else if b0 = 0xF4 then decide (0x80 ≤ b1 && b1 ≤ 0x8F)
           else isCont b1) && isCont b2 && isCont b3) then
        some ((b0 - 0xF0) * 262144 + (b1 - 0x80) * 4096 + (b2 - 0x80) * 64
          + (b3 - 0x80), r3)
      else none
    | _ => none
  else none

/-- Fuelled strict UTF-8 decoder (any `fuel ≥ b.length` gives the decode of
`b`; running out of fuel yields `none`). -/
def utf8CharsF : Nat → List Nat → Option (List Nat)
  | _, [] => some []
  | 0, _ :: _ => none
  | fuel + 1, b0 :: r =>
    match utf8Step b0 r with
    | none => none
    | some (c, rest) => (utf8CharsF fuel rest).map (c :: ·)

/-- Strict UTF-8 decoder: the scalar values encoded by `b`, or `none` if `b`
is not valid UTF-8. -/
def utf8Chars (b : List Nat) : Option (List Nat) := utf8CharsF b.length b

/-- Unicode scalar value (what a Rust `char` can hold). -/
def isScalar (c : Nat) : Bool := c < 0x110000 && !(0xD800 ≤ c && c ≤ 0xDFFF)

/-- UTF-8 encoding of one scalar value. -/
def encChar (c : Nat) : List Nat :=
  if c < 0x80 then [c]
  else if c < 0x800 then [0xC0 + c / 64, 0x80 + c % 64]
  else if c < 0x10000 then [0xE0 + c / 4096, 0x80 + c / 64 % 64, 0x80 + c % 64]
  else [0xF0 + c / 262144, 0x80 + c / 4096 % 64, 0x80 + c / 64 % 64, 0x80 + c % 64]

/-- UTF-8 encoding of a list of scalar values. -/
def encStr (cs : List Nat) : List Nat := (cs.map encChar).flatten

/-- `String::from_utf8(bytes).is_ok()`. -/
def validUtf8 (b : List Nat) : Bool := (utf8Chars b).isSome

/-- `String::from_utf8(bytes).ok()`: in the byte-list model of Rust strings
the successful result carries the same bytes. -/
def stringFromUtf8 (b : List Nat) : Option (List Nat) :=
  if validUtf8 b then some b else none

/-- `String::from_utf8(bytes).ok().unwrap_or_default()`. -/
def fromUtf8OrDefault (b : List Nat) : List Nat :=
  if validUtf8 b then b else []

/-- Rust `char::is_whitespace` (the Unicode `White_Space` property). -/
def isWs (c : Nat) : Bool :=
  c = 0x09 || c = 0x0A || c = 0x0B || c = 0x0C || c = 0x0D || c = 0x20 ||
  c = 0x85 || c = 0xA0 || c = 0x1680 || (0x2000 ≤ c && c ≤ 0x200A) ||
  c = 0x2028 || c = 0x2029 || c = 0x202F || c = 0x205F || c = 0x3000

/-- Worker for `str::split_whitespace` over scalar values: `cur` is the
reversed current token. -/
def swAux : List Nat → List Nat → List (List Nat)
  | cur, [] => if cur = [] then [] else [cur.reverse]
  | cur, c :: r =>
    if isWs c then
      if cur = [] then swAux [] r else cur.reverse :: swAux [] r
    else swAux (c :: cur) r

/-- `str::split_whitespace` on scalar values. -/
def splitWsChars (l : List Nat) : List (List Nat) := swAux [] l

/-- `str::split_whitespace` on a UTF-8 string in the byte-list model:
decode, split on Unicode whitespace, and re-encode each token.  Only ever
applied to valid strings (outputs of `String::from_utf8`). -/
def splitWhitespace (s : List Nat) : List (List Nat) :=
  match utf8Chars s with
  | some cs => (splitWsChars cs).map encStr
  | none => []

/-- `str::trim` on scalar values. -/
def trimChars (cs : List Nat) : List Nat :=
  ((cs.dropWhile isWs).reverse.dropWhile isWs).reverse

/-- `str::trim` on a UTF-8 string in the byte-list model.  Only ever applied
to valid strings. -/
def trimString (s : List Nat) : List Nat :=
  match utf8Chars s with
  | some cs => encStr (trimChars cs)
  | none => s

/-- `str::trim_matches(|c| c == '<' || c == '>')`: since `<` and `>` are
ASCII they are always char boundaries, so byte-level trimming is exact. -/
def trimAngles (s : List Nat) : List Nat :=
  ((s.dropWhile fun b => b = 60 || b = 62).reverse.dropWhile
    fun b => b = 60 || b = 62).reverse

/-! ## SHA-1 (the `Sha1::digest` dependency, RFC 3174) -/

/-- Truncate to a 32-bit word. -/
def w32 (n : Nat) : Nat := n % 4294967296

/-- 32-bit left rotation. -/
def rotl (n w : Nat) : Nat := w32 ((w <<< n) + (w >>> (32 - n)))

/-- SHA-1 message schedule: extend 16 words to 80. -/
def sha1Schedule (ws : List Nat) : List Nat :=
  (List.range 64).foldl
    (fun acc i =>
      acc ++ [rotl 1 (((acc.getD (i + 13) 0).xor (acc.getD (i + 8) 0)).xor
        ((acc.getD (i + 2) 0).xor (acc.getD i 0)))])
    ws

/-- SHA-1 round function and constant for round `i`. -/
def sha1FK (i b c d : Nat) : Nat × Nat :=
  if i < 20 then ((b.land c).lor ((w32 (4294967295 - b)).land d), 0x5A827999)
  else if i < 40 then ((b.xor c).xor d, 0x6ED9EBA1)
  else if i < 60 then (((b.land c).lor (b.land d)).lor (c.land d), 0x8F1BBCDC)
  else ((b.xor c).xor d, 0xCA62C1D6)

/-- One SHA-1 compression step. -/
def sha1Step (st : Nat × Nat × Nat × Nat × Nat) (iw : Nat × Nat) :
    Nat × Nat × Nat × Nat × Nat :=
  let (a, b, c, d, e) := st
  let (i, w) := iw
  let (f, k) := sha1FK i b c d
  (w32 (rotl 5 a + f + e + k + w), a, rotl 30 b, c, d)

/-- Compress one 64-byte block into the running state. -/
def sha1Block (h : Nat × Nat × Nat × Nat × Nat) (block : List Nat) :
    Nat × Nat × Nat × Nat × Nat :=
  let words16 := (List.range 16).map fun i =>
    block.getD (4 * i) 0 * 16777216 + block.getD (4 * i + 1) 0 * 65536 +
    block.getD (4 * i + 2) 0 * 256 + block.getD (4 * i + 3) 0
  let ws := sha1Schedule words16
  let (h0, h1, h2, h3, h4) := h
  let (a, b, c, d, e) :=
    (((List.range 80).zip ws).foldl sha1Step (h0, h1, h2, h3, h4))
  (w32 (h0 + a), w32 (h1 + b), w32 (h2 + c), w32 (h3 + d), w32 (h4 + e))

/-- Split a list into chunks of 64; `fuel` bounds the recursion. -/
def chunks64 : Nat → List Nat → List (List Nat)
  | 0, _ => []
  | _, [] => []
  | fuel + 1, l => l.take 64 :: chunks64 fuel (l.drop 64)

/-- Big-endian bytes of a 32-bit word. -/
def wordBytes (w : Nat) : List Nat :=
  [w / 16777216 % 256, w / 65536 % 256, w / 256 % 256, w % 256]

/-- SHA-1 padding: `0x80`, zeros, and the 64-bit big-endian bit length. -/
def sha1Pad (msg : List Nat) : List Nat :=
  let len := msg.length
  let zeros := (119 - len % 64) % 64
  let bitLen := 8 * len
  msg ++ [0x80] ++ List.replicate zeros 0 ++
    [bitLen / 72057594037927936 % 256, bitLen / 281474976710656 % 256,
     bitLen / 1099511627776 % 256, bitLen / 4294967296 % 256,
     bitLen / 16777216 % 256, bitLen / 65536 % 256,
     bitLen / 256 % 256, bitLen % 256]

/-- `Sha1::digest`: the 20-byte SHA-1 digest of a byte list. -/
def sha1 (msg : List Nat) : List Nat :=
  let padded := sha1Pad msg
  let (h0, h1, h2, h3, h4) :=
    (chunks64 padded.length padded).foldl sha1Block
      (0x67452301, 0xEFCDAB89, 0x98BADCFE, 0x10325476, 0xC3D2E1F0)
  wordBytes h0 ++ wordBytes h1 ++ wordBytes h2 ++ wordBytes h3 ++ wordBytes h4

/-! ## Data model (`GitObject` variants and their parts) -/

/-- `struct Blob { size, content }`; `content` is a Rust `String`, modelled
as its UTF-8 bytes. -/
structure Blob where
  size : Nat
  content : List Nat
  deriving DecidableEq, Repr

/-- `struct File { mode, name, hash }` (one tree entry). -/
structure File where
  mode : Nat
  name : List Nat
  hash : List Nat
  deriving DecidableEq, Repr

/-- `struct Tree { contents }`. -/
structure Tree where
  contents : List File
  deriving DecidableEq, Repr

/-- `struct User { name, email, ts: DateTime<FixedOffset> }`.  The
`DateTime<FixedOffset>` is modelled by the instant (`tsSecs`, seconds since
the Unix epoch) and the fixed offset (`offsetSecs`, chrono's
`local_minus_utc`, positive east of UTC). -/
structure User where
  name : List Nat
  email : List Nat
  tsSecs : Int
  offsetSecs : Int
  deriving DecidableEq, Repr

/-- `struct Commit { tree, parent, author, committer, message }`. -/
structure Commit where
  tree : List Nat
  parent : Option (List Nat)
  author : User
  committer : User
  message : List Nat
  deriving DecidableEq, Repr

/-! ## Blob operations -/

/-- `Blob::new` (`size = content.len()`, the byte length). -/
def blobNew (content : List Nat) : Blob := ⟨content.length, content⟩

/-- `Blob::from`: succeeds exactly when the buffer is valid UTF-8; the whole
buffer becomes the content. -/
def blobFrom (bytes : List Nat) : Option Blob :=
  match stringFromUtf8 bytes with
  | none => none
  | some content => some ⟨content.length, content⟩

/-- Modelled from the spec: the `Display`/`to_string` impl for `Blob` is not
in `src/`; per spec §4.1 `as_bytes` is `"blob {size}\0{content}"`, so
`to_string` returns the content. -/
def blobToString (b : Blob) : List Nat := b.content

/-- `Blob::as_bytes`: `"blob {size}\0"` followed by the content. -/
def blobAsBytes (b : Blob) : List Nat :=
  strb "blob " ++ natToDec b.size ++ 0 :: blobToString b

/-- `Blob::calc_hash`: SHA-1 of `as_bytes()`. -/
def blobCalcHash (b : Blob) : List Nat := sha1 (blobAsBytes b)

/-! ## File (tree entry) operations -/

/-- Modelled from the spec: `File::new` is not in `src/`; per spec §3 an
Entry is the` (mode, name, hash)` triple, so `new` is the plain constructor
(the hash slice is copied as-is). -/
def fileNew (mode : Nat) (name : List Nat) (hash : List Nat) : File :=
  ⟨mode, name, hash⟩

/-- `File::from(header, hash)`: decode the header as UTF-8, split on
whitespace, parse the first token as the mode, take the second as the name. -/
def fileFrom (header hash : List Nat) : Option File :=
  match stringFromUtf8 header with
  | none => none
  | some s =>
    let toks := splitWhitespace s
    match toks.get? 0 with
    | none => none
    | some t0 =>
      match parseUsize t0 with
      | none => none
      | some mode =>
        match toks.get? 1 with
        | none => none
        | some name => some (fileNew mode name hash)

/-- `File::encode`: `"{mode} {name}\0"` followed by the raw hash bytes. -/
def fileEncode (f : File) : List Nat :=
  (natToDec f.mode ++ 32 :: f.name ++ [0]) ++ f.hash

/-! ## Tree operations -/

/-- The `try_fold` loop of `Tree::from`: `header` is the pending entry
header, `pieces` the remaining null-delimited segments.  Rust's
`split_at(20)` panics when the segment is shorter than 20 bytes. -/
def treeFold (header : List Nat) (pieces : List (List Nat))
    (acc : List File) : RunResult (Option Tree) :=
  match pieces with
  | [] => .ok (some ⟨acc⟩)
  | x :: rest =>
    if 20 ≤ x.length then
      match fileFrom header (x.take 20) with
      | none => .ok none
      | some f => treeFold (x.drop 20) rest (acc ++ [f])
    else .panicked

/-- `Tree::from`: split the buffer on null bytes; the first segment is the
first header, each later segment is a 20-byte hash followed by the next
header. -/
def treeFrom (bytes : List Nat) : RunResult (Option Tree) :=
  match splitOnByte 0 bytes with
  | [] => .ok none
  | header :: pieces => treeFold header pieces []

/-- The encoded entry body of a tree (concatenation of `File::encode`). -/
def treeBody (t : Tree) : List Nat := (t.contents.map fileEncode).flatten

/-- `Tree::as_bytes`: `"tree {bodylen}\0"` followed by the entry body. -/
def treeAsBytes (t : Tree) : List Nat :=
  strb "tree " ++ natToDec (treeBody t).length ++ 0 :: treeBody t

/-! ## User (identity line) operations -/

/-- `User::from`.  The name is the trimmed text before the first `<`; the
info from the first `<` onward is split into at most three space-separated
tokens: email (angle brackets trimmed), timestamp (`i64` seconds) and
offset (`i32`, turned into a fixed offset with `FixedOffset::west(x/100*60*60)`
for negative `x` and `FixedOffset::east(x/100*60*60)` otherwise; chrono's
`west`/`east` store `-secs` resp. `+secs` as the offset and panic when the
magnitude reaches 86400 seconds).  The far-range panic of `Utc.timestamp`
(astronomical second counts) and the `i32` overflow of the intermediate
product `x/100*60*60` (|token| ≥ 59652400, debug builds only) are not
modelled. -/
def userFrom (bytes : List Nat) : RunResult (Option User) :=
  match stringFromUtf8 (bytes.takeWhile (· ≠ 60)) with
  | none => .ok none
  | some nameRaw =>
    let name := trimString nameRaw
    match stringFromUtf8 (bytes.dropWhile (· ≠ 60)) with
    | none => .ok none
    | some info =>
      let toks := splitn3space info
      match toks.get? 0 with
      | none => .ok none
      | some emailTok =>
        let email := trimAngles emailTok
        match toks.get? 1 with
        | none => .ok none
        | some tsTok =>
          match parseI64 tsTok with
          | none => .ok none
          | some ts =>
            match toks.get? 2 with
            | none => .ok none
            | some offTok =>
              match parseI32 offTok with
              | none => .ok none
              | some x =>
                let secs : Int := x.tdiv 100 * 60 * 60
                let offset : Int := if x < 0 then -secs else secs
                if offset.natAbs < 86400 then .ok (some ⟨name, email, ts, offset⟩)
                else .panicked

/-! ## Commit operations -/

/-- `x.splitn(2, |&x| x == b' ').skip(1).flatten().collect()`: the bytes
after the first space, or nothing when there is no space. -/
def afterFirstSpace (l : List Nat) : List Nat :=
  match splitn2 32 l with
  | (_, some r) => r
  | (_, none) => []

/-- The tail of `Commit::from` after the parent lookahead: parse the author
identity from `authorLine` (first token dropped), the committer from the
next remaining line, and take the following line as the message. -/
def commitTail (tree : List Nat) (parent : Option (List Nat))
    (authorLine : Option (List Nat)) (remaining : List (List Nat)) :
    RunResult (Option Commit) :=
  match authorLine with
  | none => .ok none
  | some al =>
    match userFrom (afterFirstSpace al) with
    | .panicked => .panicked
    | .ok none => .ok none
    | .ok (some author) =>
      match remaining with
      | [] => .ok none
      | cl :: remaining2 =>
        match userFrom (afterFirstSpace cl) with
        | .panicked => .panicked
        | .ok none => .ok none
        | .ok (some committer) =>
          match remaining2 with
          | [] => .ok none
          | ml :: _ =>
            match stringFromUtf8 ml with
            | none => .ok none
            | some msg => .ok (some ⟨tree, parent, author, committer, msg⟩)

/-- `Commit::from` on the list of non-empty lines.  The first line yields
the tree reference (bytes after the first space).  The parent lookahead
splits the next line at its first space into `x[0]` and `x[1]` (a line with
no space makes the `x[1]` index panic); if `x[0]` reads `parent` the line is
consumed as the parent reference, otherwise it is rebuilt as
`x[0] ++ " " ++ x[1]` and used as the author line.  When no next line
exists the author source is the empty byte string (`Err(Vec::new())`). -/
def commitFromLines (ls : List (List Nat)) : RunResult (Option Commit) :=
  match ls with
  | [] => .ok none
  | treeLine :: rest =>
    match stringFromUtf8 (afterFirstSpace treeLine) with
    | none => .ok none
    | some tree =>
      match rest with
      | [] => commitTail tree none (some []) []
      | l :: rest2 =>
        let p := splitn2 32 l
        match p.2 with
        | none => .panicked
        | some x1 =>
          if fromUtf8OrDefault p.1 = strb "parent" then
            commitTail tree (some (fromUtf8OrDefault x1)) rest2.head? rest2.tail
          else
            commitTail tree none
              (some (fromUtf8OrDefault p.1 ++ 32 :: fromUtf8OrDefault x1)) rest2

/-- `Commit::from`: split the buffer on newlines, filter out empty lines,
then consume lines in order. -/
def commitFrom (bytes : List Nat) : RunResult (Option Commit) :=
  commitFromLines ((splitOnByte 10 bytes).filter (· ≠ []))

/-! ## Specification-side predicates -/

/-- A byte list is (spec-side) valid UTF-8 text: it is the encoding of some
list of Unicode scalar values. -/
def IsUtf8 (b : List Nat) : Prop :=
  ∃ cs, (∀ c ∈ cs, isScalar c = true) ∧ b = encStr cs

/-- A tree entry free of interior parsing ambiguity: a 20-byte hash with no
null byte, a mode that fits the 64-bit integer used in the encoded text, and
a non-empty, null-free valid-UTF-8 name with no whitespace character. -/
def goodEntry (e : File) : Bool :=
  e.hash.length = 20 && e.hash.all (· ≠ 0) && decide (e.mode < 2 ^ 64) &&
  e.name.all (· ≠ 0) &&
  (match utf8Chars e.name with
   | some cs => !cs.isEmpty && cs.all (fun c => !isWs c)
   | none => false)

/-- A two-entry tree used as a concrete instance (20-byte null-free hashes). -/
def sampleTree : Tree :=
  ⟨[⟨100644, strb "a.txt", List.replicate 20 1⟩,
    ⟨493, strb "b", List.replicate 19 2 ++ [3]⟩]⟩

/-- A concrete commit buffer whose message part spans two lines. -/
def sampleCommitBuf : List Nat :=
  strb "tree t\nauthor a <e> 0 +0\ncommitter a <e> 0 +0\n\nline1\nline2"

/-- The commit that `Commit::from` actually decodes from `sampleCommitBuf`. -/
def sampleCommit : Commit :=
  ⟨strb "t", none, ⟨strb "a", strb "e", 0, 0⟩, ⟨strb "a", strb "e", 0, 0⟩,
   strb "line1"⟩

/-! ## Lemmas: splitters -/

lemma splitOnByte_ne_nil (c : Nat) (l : List Nat) : splitOnByte c l ≠ [] := by
  induction l with
  | nil => simp [splitOnByte]
  | cons b r ih =>
    by_cases hb : b = c
    · simp [splitOnByte, hb]
    · simp only [splitOnByte, if_neg hb]
      cases h : splitOnByte c r <;> simp

lemma not_mem_of_mem_splitOnByte {c : Nat} {l x : List Nat}
    (hx : x ∈ splitOnByte c l) : c ∉ x := by
  induction l generalizing x with
  | nil =>
    simp [splitOnByte] at hx
    simp [hx]
  | cons b r ih =>
    by_cases hb : b = c
    · rw [hb] at hx
      simp only [splitOnByte, if_pos rfl] at hx
      rcases List.mem_cons.mp hx with h | h
      · simp [h]
      · exact ih h
    · simp only [splitOnByte, if_neg hb] at hx
      cases h : splitOnByte c r with
      | nil => exact absurd h (splitOnByte_ne_nil c r)
      | cons y t =>
        rw [h] at hx
        rcases List.mem_cons.mp hx with h2 | h2
        · subst h2
          intro hmem
          rcases List.mem_cons.mp hmem with h3 | h3
          · exact hb h3.symm
          · exact ih (h ▸ List.mem_cons_self y t) h3
        · exact ih (h ▸ List.mem_cons_of_mem y h2)

lemma splitOnByte_of_not_mem {c : Nat} {l : List Nat} (h : c ∉ l) :
    splitOnByte c l = [l] := by
  induction l with
  | nil => rfl
  | cons b r ih =>
    have hb : b ≠ c := fun hbc => h (by simp [hbc])
    have hr : c ∉ r := fun hcr => h (by simp [hcr])
    simp only [splitOnByte, if_neg hb, ih hr]

lemma splitOnByte_append {c : Nat} {a b : List Nat} (h : c ∉ a) :
    splitOnByte c (a ++ c :: b) = a :: splitOnByte c b := by
  induction a with
  | nil => simp [splitOnByte]
  | cons x a' ih =>
    have hx : x ≠ c := fun hxc => h (by simp [hxc])
    have ha : c ∉ a' := fun hca => h (by simp [hca])
    simp only [List.cons_append, splitOnByte, if_neg hx, List.append_eq, ih ha]

lemma splitn2_append {c : Nat} {a b : List Nat} (h : c ∉ a) :
    splitn2 c (a ++ c :: b) = (a, some b) := by
  induction a with
  | nil => simp [splitn2]
  | cons x a' ih =>
    have hx : x ≠ c := fun hxc => h (by simp [hxc])
    have ha : c ∉ a' := fun hca => h (by simp [hca])
    simp only [List.cons_append, splitn2, if_neg hx, List.append_eq, ih ha]

/-! ## Lemmas: decimal formatting and parsing -/

lemma natToDecAux_digits (fuel n : Nat) :
    (natToDecAux fuel n).all isDigitB = true := by
  induction fuel generalizing n with
  | zero => rfl
  | succ f ih =>
    simp only [natToDecAux]
    split
    · rfl
    · rw [List.all_append, ih]
      simp [isDigitB]
      omega

lemma natToDecAux_val (fuel : Nat) :
    ∀ n a, n ≤ fuel →
      List.foldl (fun a d => a * 10 + (d - 48)) a (natToDecAux fuel n)
        = a * 10 ^ (natToDecAux fuel n).length + n := by
  induction fuel with
  | zero =>
    intro n a h
    have : n = 0 := Nat.le_zero.mp h
    simp [this, natToDecAux]
  | succ f ih =>
    intro n a h
    by_cases hn : n = 0
    · simp [natToDecAux, hn]
    · have hdl : n / 10 < n := Nat.div_lt_self (Nat.pos_of_ne_zero hn) (by omega)
      have hdiv : n / 10 ≤ f := by omega
      simp only [natToDecAux, if_neg hn]
      rw [List.foldl_append, ih (n / 10) a hdiv]
      simp only [List.foldl_cons, List.foldl_nil, List.length_append,
        List.length_singleton]
      rw [pow_succ, ← Nat.mul_assoc]
      omega

lemma natToDec_digits (n : Nat) : (natToDec n).all isDigitB = true := by
  by_cases hn : n = 0
  · simp [natToDec, hn, isDigitB]
  · simp only [natToDec, if_neg hn]
    exact natToDecAux_digits n n

lemma natToDec_ne_nil (n : Nat) : natToDec n ≠ [] := by
  by_cases hn : n = 0
  · simp [natToDec, hn]
  · simp only [natToDec, if_neg hn]
    cases n with
    | zero => exact absurd rfl hn
    | succ m =>
      simp only [natToDecAux, if_neg hn]
      simp

lemma decValue_natToDec (n : Nat) : decValue (natToDec n) = n := by
  by_cases hn : n = 0
  · simp [natToDec, hn, decValue]
  · simp only [natToDec, if_neg hn, decValue]
    have := natToDecAux_val n n 0 (Nat.le_refl n)
    simpa using this

lemma dropSign43_of_digits {s : List Nat} (h : s.all isDigitB = true) :
    dropSign43 s = s := by
  unfold dropSign43
  split
  · simp [isDigitB] at h
  · rfl

lemma parseUsize_natToDec {m : Nat} (h : m < 2 ^ 64) :
    parseUsize (natToDec m) = some m := by
  have hd := natToDec_digits m
  have hne := natToDec_ne_nil m
  simp [parseUsize, dropSign43_of_digits hd, hne, hd, decValue_natToDec, h]
  simpa using h

/-! ## Lemmas: UTF-8 -/

lemma encStr_nil : encStr [] = [] := rfl

lemma encStr_cons (c : Nat) (cs : List Nat) :
    encStr (c :: cs) = encChar c ++ encStr cs := rfl

lemma encChar_one {b : Nat} (h : b < 128) : encChar b = [b] := by
  simp only [encChar]
  rw [if_pos h]

lemma encChar_two {b0 b1 : Nat} (h0 : 194 ≤ b0) (h0' : b0 ≤ 223)
    (h1 : 128 ≤ b1) (h1' : b1 ≤ 191) :
    encChar ((b0 - 192) * 64 + (b1 - 128)) = [b0, b1] := by
  have hlo : ¬((b0 - 192) * 64 + (b1 - 128) < 128) := by omega
  have hhi : (b0 - 192) * 64 + (b1 - 128) < 2048 := by omega
  simp only [encChar]
  rw [if_neg hlo, if_pos hhi]
  have hd : ((b0 - 192) * 64 + (b1 - 128)) / 64 = b0 - 192 := by omega
  have hm : ((b0 - 192) * 64 + (b1 - 128)) % 64 = b1 - 128 := by omega
  rw [hd, hm]
  have e0 : 192 + (b0 - 192) = b0 := by omega
  have e1 : 128 + (b1 - 128) = b1 := by omega
  rw [e0, e1]

lemma encChar_three {b0 b1 b2 : Nat} (h0 : 224 ≤ b0) (h0' : b0 ≤ 239)
    (h1 : 128 ≤ b1) (h1' : b1 ≤ 191) (h2 : 128 ≤ b2) (h2' : b2 ≤ 191)
    (h8 : 2048 ≤ (b0 - 224) * 4096 + (b1 - 128) * 64 + (b2 - 128)) :
    encChar ((b0 - 224) * 4096 + (b1 - 128) * 64 + (b2 - 128)) = [b0, b1, b2] := by
  have hlo : ¬((b0 - 224) * 4096 + (b1 - 128) * 64 + (b2 - 128) < 128) := by omega
  have hlo2 : ¬((b0 - 224) * 4096 + (b1 - 128) * 64 + (b2 - 128) < 2048) := by omega
  have hhi : (b0 - 224) * 4096 + (b1 - 128) * 64 + (b2 - 128) < 65536 := by omega
  simp only [encChar]
  rw [if_neg hlo, if_neg hlo2, if_pos hhi]
  have hd : ((b0 - 224) * 4096 + (b1 - 128) * 64 + (b2 - 128)) / 4096 = b0 - 224 := by
    omega
  have hd2 : ((b0 - 224) * 4096 + (b1 - 128) * 64 + (b2 - 128)) / 64 % 64 = b1 - 128 := by
    omega
  have hm : ((b0 - 224) * 4096 + (b1 - 128) * 64 + (b2 - 128)) % 64 = b2 - 128 := by
    omega
  rw [hd, hd2, hm]
  have e0 : 224 + (b0 - 224) = b0 := by omega
  have e1 : 128 + (b1 - 128) = b1 := by omega
  have e2 : 128 + (b2 - 128) = b2 := by omega
  rw [e0, e1, e2]

lemma encChar_four {b0 b1 b2 b3 : Nat} (h0 : 240 ≤ b0) (h0' : b0 ≤ 244)
    (h1 : 128 ≤ b1) (h1' : b1 ≤ 191) (h2 : 128 ≤ b2) (h2' : b2 ≤ 191)
    (h3 : 128 ≤ b3) (h3' : b3 ≤ 191)
    (h16 : 65536 ≤ (b0 - 240) * 262144 + (b1 - 128) * 4096 + (b2 - 128) * 64
      + (b3 - 128)) :
    encChar ((b0 - 240) * 262144 + (b1 - 128) * 4096 + (b2 - 128) * 64 + (b3 - 128))
      = [b0, b1, b2, b3] := by
  have hlo : ¬((b0 - 240) * 262144 + (b1 - 128) * 4096 + (b2 - 128) * 64 + (b3 - 128)
      < 128) := by omega
  have hlo2 : ¬((b0 - 240) * 262144 + (b1 - 128) * 4096 + (b2 - 128) * 64 + (b3 - 128)
      < 2048) := by omega
  have hlo3 : ¬((b0 - 240) * 262144 + (b1 - 128) * 4096 + (b2 - 128) * 64 + (b3 - 128)
      < 65536) := by omega
  simp only [encChar]
  rw [if_neg hlo, if_neg hlo2, if_neg hlo3]
  have hd : ((b0 - 240) * 262144 + (b1 - 128) * 4096 + (b2 - 128) * 64 + (b3 - 128))
      / 262144 = b0 - 240 := by omega
  have hd2 : ((b0 - 240) * 262144 + (b1 - 128) * 4096 + (b2 - 128) * 64 + (b3 - 128))
      / 4096 % 64 = b1 - 128 := by omega
  have hd3 : ((b0 - 240) * 262144 + (b1 - 128) * 4096 + (b2 - 128) * 64 + (b3 - 128))
      / 64 % 64 = b2 - 128 := by omega
  have hm : ((b0 - 240) * 262144 + (b1 - 128) * 4096 + (b2 - 128) * 64 + (b3 - 128))
      % 64 = b3 - 128 := by omega
  rw [hd, hd2, hd3, hm]
  have e0 : 240 + (b0 - 240) = b0 := by omega
  have e1 : 128 + (b1 - 128) = b1 := by omega
  have e2 : 128 + (b2 - 128) = b2 := by omega
  have e3 : 128 + (b3 - 128) = b3 := by omega
  rw [e0, e1, e2, e3]

/-- Soundness of one UTF-8 decoding step: the decoded value is a scalar
whose encoding is exactly the consumed bytes. -/
lemma utf8Step_sound {b0 : Nat} {r : List Nat} {c : Nat} {rest : List Nat}
    (h : utf8Step b0 r = some (c, rest)) :
    isScalar c = true ∧ encChar c ++ rest = b0 :: r ∧ rest.length ≤ r.length := by
  unfold utf8Step at h
  by_cases h1 : b0 < 128
  · rw [if_pos h1] at h
    simp only [Option.some.injEq, Prod.mk.injEq] at h
    obtain ⟨rfl, rfl⟩ := h
    refine ⟨by simp [isScalar]; omega, ?_, le_refl _⟩
    rw [encChar_one h1]
    rfl
  rw [if_neg h1] at h
  by_cases h2 : b0 < 194
  · rw [if_pos h2] at h
    exact absurd h (by simp)
  rw [if_neg h2] at h
  by_cases h3 : b0 ≤ 223
  · rw [if_pos h3] at h
    rcases r with _ | ⟨b1, r1⟩
    · simp at h
    · dsimp only at h
      by_cases hc : isCont b1 = true
      · rw [if_pos hc] at h
        simp only [Option.some.injEq, Prod.mk.injEq] at h
        obtain ⟨rfl, rfl⟩ := h
        have hb1 : 128 ≤ b1 ∧ b1 ≤ 191 := by simpa [isCont] using hc
        refine ⟨by simp [isScalar]; omega, ?_, by simp⟩
        rw [encChar_two (by omega) h3 hb1.1 hb1.2]
        rfl
      · rw [if_neg hc] at h
        exact absurd h (by simp)
  rw [if_neg h3] at h
  by_cases h4 : b0 ≤ 239
  · rw [if_pos h4] at h
    rcases r with _ | ⟨b1, _ | ⟨b2, r2⟩⟩
    · simp at h
    · simp at h
    · dsimp only at h
      by_cases hc : ((if b0 = 224 then decide (160 ≤ b1 && b1 ≤ 191)
          else if b0 = 237 then decide (128 ≤ b1 && b1 ≤ 159)
          else isCont b1) && isCont b2) = true
      · rw [if_pos hc] at h
        simp only [Option.some.injEq, Prod.mk.injEq] at h
        obtain ⟨rfl, rfl⟩ := h
        rw [Bool.and_eq_true] at hc
        have hb2 : 128 ≤ b2 ∧ b2 ≤ 191 := by simpa [isCont] using hc.2
        have hb1 : (b0 = 224 ∧ 160 ≤ b1 ∧ b1 ≤ 191) ∨
            (b0 = 237 ∧ 128 ≤ b1 ∧ b1 ≤ 159) ∨
            (b0 ≠ 224 ∧ b0 ≠ 237 ∧ 128 ≤ b1 ∧ b1 ≤ 191) := by
          have h1' := hc.1
          by_cases e0 : b0 = 224
          · rw [if_pos e0] at h1'
            exact Or.inl ⟨e0, by simpa using h1'⟩
          · rw [if_neg e0] at h1'
            by_cases e1 : b0 = 237
            · rw [if_pos e1] at h1'
              exact Or.inr (Or.inl ⟨e1, by simpa using h1'⟩)
            · rw [if_neg e1] at h1'
              exact Or.inr (Or.inr ⟨e0, e1, by simpa [isCont] using h1'⟩)
        refine ⟨by simp [isScalar]; omega, ?_, by simp only [List.length_cons]; omega⟩
        rw [encChar_three (by omega) h4 (by omega) (by omega) hb2.1 hb2.2
          (by omega)]
        rfl
      · rw [if_neg hc] at h
        exact absurd h (by simp)
  rw [if_neg h4] at h
  by_cases h5 : b0 ≤ 244
  · rw [if_pos h5] at h
    rcases r with _ | ⟨b1, _ | ⟨b2, _ | ⟨b3, r3⟩⟩⟩
    · simp at h
    · simp at h
    · simp at h
    · dsimp only at h
      by_cases hc : ((if b0 = 240 then decide (144 ≤ b1 && b1 ≤ 191)
          else if b0 = 244 then decide (128 ≤ b1 && b1 ≤ 143)
          else isCont b1) && isCont b2 && isCont b3) = true
      · rw [if_pos hc] at h
        simp only [Option.some.injEq, Prod.mk.injEq] at h
        obtain ⟨rfl, rfl⟩ := h
        rw [Bool.and_eq_true] at hc
        rw [Bool.and_eq_true] at hc
        have hb2 : 128 ≤ b2 ∧ b2 ≤ 191 := by simpa [isCont] using hc.1.2
        have hb3 : 128 ≤ b3 ∧ b3 ≤ 191 := by simpa [isCont] using hc.2
        have hb1 : (b0 = 240 ∧ 144 ≤ b1 ∧ b1 ≤ 191) ∨
            (b0 = 244 ∧ 128 ≤ b1 ∧ b1 ≤ 143) ∨
            (b0 ≠ 240 ∧ b0 ≠ 244 ∧ 128 ≤ b1 ∧ b1 ≤ 191) := by
          have h1' := hc.1.1
          by_cases e0 : b0 = 240
          · rw [if_pos e0] at h1'
            exact Or.inl ⟨e0, by simpa using h1'⟩
          · rw [if_neg e0] at h1'
            by_cases e1 : b0 = 244
            · rw [if_pos e1] at h1'
              exact Or.inr (Or.inl ⟨e1, by simpa using h1'⟩)
            · rw [if_neg e1] at h1'
              exact Or.inr (Or.inr ⟨e0, e1, by simpa [isCont] using h1'⟩)
        refine ⟨by simp [isScalar]; omega, ?_, by simp only [List.length_cons]; omega⟩
        rw [encChar_four (by omega) h5 (by omega) (by omega) hb2.1 hb2.2
          hb3.1 hb3.2 (by omega)]
        rfl
      · rw [if_neg hc] at h
        exact absurd h (by simp)
  rw [if_neg h5] at h
  exact absurd h (by simp)

/-- Soundness of the fuelled UTF-8 decoder. -/
lemma utf8CharsF_sound : ∀ (fuel : Nat) (b cs : List Nat),
    utf8CharsF fuel b = some cs →
    (∀ c ∈ cs, isScalar c = true) ∧ encStr cs = b := by
  intro fuel
  induction fuel with
  | zero =>
    intro b cs h
    cases b with
    | nil =>
      simp only [utf8CharsF, Option.some.injEq] at h
      subst h
      exact ⟨by simp, rfl⟩
    | cons b0 r => simp [utf8CharsF] at h
  | succ f ih =>
    intro b cs h
    cases b with
    | nil =>
      simp only [utf8CharsF, Option.some.injEq] at h
      subst h
      exact ⟨by simp, rfl⟩
    | cons b0 r =>
      simp only [utf8CharsF] at h
      cases hstep : utf8Step b0 r with
      | none => rw [hstep] at h; simp at h
      | some p =>
        obtain ⟨c, rest⟩ := p
        rw [hstep] at h
        simp only at h
        rcases Option.map_eq_some'.mp h with ⟨cs', hr, rfl⟩
        obtain ⟨hsc, henc⟩ := ih rest cs' hr
        obtain ⟨hstepSc, hstepEnc, _⟩ := utf8Step_sound hstep
        refine ⟨?_, ?_⟩
        · intro x hx
          rcases List.mem_cons.mp hx with rfl | hx'
          · exact hstepSc
          · exact hsc x hx'
        · rw [encStr_cons, henc, hstepEnc]

/-- Soundness of the UTF-8 decoder: a successful decode yields scalar
values whose re-encoding is the original byte list. -/
lemma utf8Chars_sound {b cs : List Nat} (h : utf8Chars b = some cs) :
    (∀ c ∈ cs, isScalar c = true) ∧ encStr cs = b :=
  utf8CharsF_sound b.length b cs h

/-- The fuelled decoder is independent of the fuel once it covers the
length of the input. -/
lemma utf8CharsF_fuel : ∀ (f1 f2 : Nat) (b : List Nat),
    b.length ≤ f1 → b.length ≤ f2 → utf8CharsF f1 b = utf8CharsF f2 b := by
  intro f1
  induction f1 with
  | zero =>
    intro f2 b h1 h2
    cases b with
    | nil => cases f2 <;> rfl
    | cons b0 r => simp at h1
  | succ g1 ih =>
    intro f2 b h1 h2
    cases b with
    | nil => cases f2 <;> rfl
    | cons b0 r =>
      cases f2 with
      | zero => simp at h2
      | succ g2 =>
        simp only [utf8CharsF]
        cases hstep : utf8Step b0 r with
        | none => rfl
        | some p =>
          obtain ⟨c, rest⟩ := p
          have hlen := (utf8Step_sound hstep).2.2
          simp only [List.length_cons] at h1 h2
          dsimp only
          rw [ih g2 rest (by omega) (by omega)]

/-- Step processing of the encoding of a one-byte scalar. -/
lemma utf8Step_one {c : Nat} (h : c < 128) (r : List Nat) :
    utf8Step c r = some (c, r) := by
  unfold utf8Step
  rw [if_pos h]

/-- Step processing of the encoding of a two-byte scalar. -/
lemma utf8Step_two {c : Nat} (h1 : 128 ≤ c) (h2 : c < 2048) (r : List Nat) :
    utf8Step (192 + c / 64) ((128 + c % 64) :: r) = some (c, r) := by
  have n1 : ¬(192 + c / 64 < 128) := by omega
  have n2 : ¬(192 + c / 64 < 194) := by omega
  have p3 : 192 + c / 64 ≤ 223 := by omega
  have pc : isCont (128 + c % 64) = true := by simp [isCont]; omega
  unfold utf8Step
  rw [if_neg n1, if_neg n2, if_pos p3]
  dsimp only
  rw [if_pos pc]
  simp only [Option.some.injEq, Prod.mk.injEq]
  exact ⟨by omega, trivial⟩

/-- Step processing of the encoding of a three-byte scalar. -/
lemma utf8Step_three {c : Nat} (h1 : 2048 ≤ c) (h2 : c < 65536)
    (hs : c < 55296 ∨ 57343 < c) (r : List Nat) :
    utf8Step (224 + c / 4096) ((128 + c / 64 % 64) :: (128 + c % 64) :: r)
      = some (c, r) := by
  have n1 : ¬(224 + c / 4096 < 128) := by omega
  have n2 : ¬(224 + c / 4096 < 194) := by omega
  have n3 : ¬(224 + c / 4096 ≤ 223) := by omega
  have p4 : 224 + c / 4096 ≤ 239 := by omega
  unfold utf8Step
  rw [if_neg n1, if_neg n2, if_neg n3, if_pos p4]
  dsimp only
  rw [if_pos ?hc]
  · simp only [Option.some.injEq, Prod.mk.injEq]
    exact ⟨by omega, trivial⟩
  case hc =>
    rw [Bool.and_eq_true]
    refine ⟨?_, by simp [isCont]; omega⟩
    by_cases e0 : 224 + c / 4096 = 224
    · rw [if_pos e0]
      simp only [decide_eq_true_eq, Bool.and_eq_true]
      omega
    · rw [if_neg e0]
      by_cases e1 : 224 + c / 4096 = 237
      · rw [if_pos e1]
        simp only [decide_eq_true_eq, Bool.and_eq_true]
        omega
      · rw [if_neg e1]
        simp [isCont]
        omega

/-- Step processing of the encoding of a four-byte scalar. -/
lemma utf8Step_four {c : Nat} (h1 : 65536 ≤ c) (h2 : c < 1114112)
    (r : List Nat) :
    utf8Step (240 + c / 262144)
      ((128 + c / 4096 % 64) :: (128 + c / 64 % 64) :: (128 + c % 64) :: r)
      = some (c, r) := by
  have n1 : ¬(240 + c / 262144 < 128) := by omega
  have n2 : ¬(240 + c / 262144 < 194) := by omega
  have n3 : ¬(240 + c / 262144 ≤ 223) := by omega
  have n4 : ¬(240 + c / 262144 ≤ 239) := by omega
  have p5 : 240 + c / 262144 ≤ 244 := by omega
  unfold utf8Step
  rw [if_neg n1, if_neg n2, if_neg n3, if_neg n4, if_pos p5]
  dsimp only
  rw [if_pos ?hc]
  · simp only [Option.some.injEq, Prod.mk.injEq]
    exact ⟨by omega, trivial⟩
  case hc =>
    rw [Bool.and_eq_true]
    refine ⟨?_, by simp [isCont]; omega⟩
    rw [Bool.and_eq_true]
    refine ⟨?_, by simp [isCont]; omega⟩
    by_cases e0 : 240 + c / 262144 = 240
    · rw [if_pos e0]
      simp only [decide_eq_true_eq, Bool.and_eq_true]
      omega
    · rw [if_neg e0]
      by_cases e1 : 240 + c / 262144 = 244
      · rw [if_pos e1]
        simp only [decide_eq_true_eq, Bool.and_eq_true]
        omega
      · rw [if_neg e1]
        simp [isCont]
        omega

/-- Prepending the encoding of one scalar value to a byte list prepends the
value to the decode. -/
lemma utf8Chars_append_encChar {c : Nat} (hc : isScalar c = true)
    (r : List Nat) :
    utf8Chars (encChar c ++ r) = (utf8Chars r).map (c :: ·) := by
  have hsc : c < 1114112 ∧ (c < 55296 ∨ 57343 < c) := by
    simpa [isScalar] using hc
  have hstep : ∃ b0 t, encChar c ++ r = b0 :: t ∧ utf8Step b0 t = some (c, r) := by
    by_cases r1 : c < 128
    · exact ⟨c, r, by rw [encChar_one r1]; rfl, utf8Step_one r1 r⟩
    · by_cases r2 : c < 2048
      · refine ⟨192 + c / 64, (128 + c % 64) :: r, ?_,
          utf8Step_two (by omega) r2 r⟩
        rw [show encChar c = [192 + c / 64, 128 + c % 64] from by
          simp only [encChar]
          rw [if_neg r1, if_pos r2]]
        rfl
      · by_cases r3 : c < 65536
        · refine ⟨224 + c / 4096, (128 + c / 64 % 64) :: (128 + c % 64) :: r,
            ?_, utf8Step_three (by omega) r3 hsc.2 r⟩
          have n2 : ¬(c < 2048) := r2
          rw [show encChar c = [224 + c / 4096, 128 + c / 64 % 64, 128 + c % 64]
            from by
            simp only [encChar]
            rw [if_neg r1, if_neg n2, if_pos r3]]
          rfl
        · refine ⟨240 + c / 262144,
            (128 + c / 4096 % 64) :: (128 + c / 64 % 64) :: (128 + c % 64) :: r,
            ?_, utf8Step_four (by omega) hsc.1 r⟩
          have n2 : ¬(c < 2048) := r2
          have n3 : ¬(c < 65536) := r3
          rw [show encChar c =
            [240 + c / 262144, 128 + c / 4096 % 64, 128 + c / 64 % 64,
             128 + c % 64] from by
            simp only [encChar]
            rw [if_neg r1, if_neg n2, if_neg n3]]
          rfl
  obtain ⟨b0, t, heq, hstep⟩ := hstep
  rw [heq]
  show utf8CharsF (b0 :: t).length (b0 :: t) = (utf8Chars r).map (c :: ·)
  simp only [List.length_cons, utf8CharsF, hstep]
  have hrt : r.length ≤ t.length := by
    have hteq : (encChar c ++ r).length = t.length + 1 := by
      rw [heq]
      rfl
    have hel : 1 ≤ (encChar c).length := by
      simp only [encChar]
      split_ifs <;> simp
    simp only [List.length_append] at hteq
    omega
  rw [utf8CharsF_fuel t.length r.length r hrt (le_refl _)]
  rfl

/-- Completeness of the UTF-8 decoder: the encoding of scalar values
decodes to them. -/
lemma utf8Chars_encStr {cs : List Nat} (h : ∀ c ∈ cs, isScalar c = true) :
    utf8Chars (encStr cs) = some cs := by
  induction cs with
  | nil => rfl
  | cons c cs' ih =>
    rw [encStr_cons, utf8Chars_append_encChar (h c (List.mem_cons_self c cs'))]
    rw [ih fun x hx => h x (List.mem_cons_of_mem c hx)]
    rfl

/-- Prepending ASCII bytes to a byte list prepends them to the decode. -/
lemma utf8Chars_ascii_append {a : List Nat} (r : List Nat)
    (h : ∀ b ∈ a, b < 128) :
    utf8Chars (a ++ r) = (utf8Chars r).map (a ++ ·) := by
  induction a with
  | nil =>
    simp only [List.nil_append]
    cases utf8Chars r <;> simp
  | cons b a' ih =>
    have hb : b < 128 := h b (List.mem_cons_self b a')
    have ha : ∀ x ∈ a', x < 128 := fun x hx => h x (List.mem_cons_of_mem b hx)
    have hsc : isScalar b = true := by simp [isScalar]; omega
    rw [List.cons_append,
      show (b : Nat) :: (a' ++ r) = encChar b ++ (a' ++ r) from by
        rw [encChar_one hb]; rfl,
      utf8Chars_append_encChar hsc, ih ha]
    cases utf8Chars r <;> simp

/-- The encoding of ASCII scalar values is the values themselves. -/
lemma encStr_ascii {a : List Nat} (h : ∀ b ∈ a, b < 128) : encStr a = a := by
  induction a with
  | nil => rfl
  | cons b a' ih =>
    rw [encStr_cons, encChar_one (h b (List.mem_cons_self b a')),
      ih fun x hx => h x (List.mem_cons_of_mem b hx)]
    rfl

/-! ## Lemmas: whitespace splitting -/

lemma swAux_nonws (tok : List Nat) (h : ∀ c ∈ tok, isWs c = false) :
    ∀ cur r, swAux cur (tok ++ r) = swAux (tok.reverse ++ cur) r := by
  induction tok with
  | nil => intro cur r; simp
  | cons c tok' ih =>
    intro cur r
    have hc : isWs c = false := h c (List.mem_cons_self c tok')
    have ht : ∀ x ∈ tok', isWs x = false :=
      fun x hx => h x (List.mem_cons_of_mem c hx)
    rw [List.cons_append]
    show swAux cur (c :: (tok' ++ r)) = _
    simp only [swAux, hc]
    rw [if_neg (by simp)]
    rw [ih ht (c :: cur) r]
    congr 1
    simp

lemma swAux_run (tok : List Nat) (htok : ∀ c ∈ tok, isWs c = false)
    (cur : List Nat) : swAux cur tok = swAux (tok.reverse ++ cur) [] := by
  have h := swAux_nonws tok htok cur []
  rwa [List.append_nil] at h

/-- `split_whitespace` of `"token1 token2"` with whitespace-free non-empty
tokens. -/
lemma splitWsChars_pair {d n : List Nat} (hd : d ≠ []) (hn : n ≠ [])
    (hdw : ∀ c ∈ d, isWs c = false) (hnw : ∀ c ∈ n, isWs c = false) :
    splitWsChars (d ++ 32 :: n) = [d, n] := by
  unfold splitWsChars
  rw [swAux_nonws d hdw [] (32 :: n), List.append_nil]
  have h32 : isWs 32 = true := by decide
  have hrev : ¬(d.reverse = []) := by simpa using hd
  simp only [swAux, h32]
  rw [if_pos trivial, if_neg hrev, List.reverse_reverse]
  congr 1
  rw [swAux_run n hnw [], List.append_nil]
  simp only [swAux]
  rw [if_neg (by simpa using hn), List.reverse_reverse]

/-! ## Lemmas: entry and tree round-trip -/

lemma isWs_digit {b : Nat} (h : isDigitB b = true) : isWs b = false := by
  simp only [isDigitB, Bool.and_eq_true, decide_eq_true_eq] at h
  simp only [isWs]
  simp only [Bool.or_eq_false_iff, decide_eq_false_iff_not, Bool.and_eq_false_iff,
    decide_eq_false_iff_not]
  omega

lemma natToDec_bytes {n b : Nat} (h : b ∈ natToDec n) : 48 ≤ b ∧ b ≤ 57 := by
  have hall := natToDec_digits n
  rw [List.all_eq_true] at hall
  have := hall b h
  simpa [isDigitB] using this

/-- Unpacking of `goodEntry`. -/
lemma goodEntry_spec {e : File} (he : goodEntry e = true) :
    e.hash.length = 20 ∧ (∀ b ∈ e.hash, b ≠ 0) ∧ e.mode < 2 ^ 64 ∧
    (∀ b ∈ e.name, b ≠ 0) ∧
    ∃ cs, utf8Chars e.name = some cs ∧ cs ≠ [] ∧ ∀ c ∈ cs, isWs c = false := by
  unfold goodEntry at he
  rw [Bool.and_eq_true] at he
  obtain ⟨he1, he2⟩ := he
  rw [Bool.and_eq_true] at he1
  obtain ⟨he1, he3⟩ := he1
  rw [Bool.and_eq_true] at he1
  obtain ⟨he1, he4⟩ := he1
  rw [Bool.and_eq_true] at he1
  obtain ⟨he5, he6⟩ := he1
  refine ⟨by simpa using he5, ?_, by simpa using he4, ?_, ?_⟩
  · intro b hb
    rw [List.all_eq_true] at he6
    simpa using he6 b hb
  · intro b hb
    rw [List.all_eq_true] at he3
    simpa using he3 b hb
  · cases hu : utf8Chars e.name with
    | none => rw [hu] at he2; exact absurd he2 (by simp)
    | some cs =>
      rw [hu] at he2
      rw [Bool.and_eq_true] at he2
      refine ⟨cs, rfl, by simpa using he2.1, ?_⟩
      intro c hc
      have := he2.2
      rw [List.all_eq_true] at this
      simpa using this c hc

/-- Decoding the encoded header of a well-formed entry recovers the entry. -/
lemma fileFrom_header {e : File} (he : goodEntry e = true) :
    fileFrom (natToDec e.mode ++ 32 :: e.name) e.hash = some e := by
  obtain ⟨_, _, hmode, _, cs, hcs, hcsne, hcsw⟩ := goodEntry_spec he
  have hdasc : ∀ b ∈ natToDec e.mode, b < 128 := by
    intro b hb
    have := natToDec_bytes hb
    omega
  have hdec : utf8Chars (natToDec e.mode ++ 32 :: e.name)
      = some (natToDec e.mode ++ 32 :: cs) := by
    rw [utf8Chars_ascii_append _ hdasc,
      show (32 : Nat) :: e.name = [32] ++ e.name from rfl,
      utf8Chars_ascii_append _ (by intro b hb; simp at hb; omega), hcs]
    rfl
  have hvalid : validUtf8 (natToDec e.mode ++ 32 :: e.name) = true := by
    rw [validUtf8, hdec]
    rfl
  have hsplit : splitWhitespace (natToDec e.mode ++ 32 :: e.name)
      = [natToDec e.mode, e.name] := by
    rw [splitWhitespace, hdec]
    dsimp only
    rw [splitWsChars_pair (natToDec_ne_nil e.mode) hcsne
      (fun c hc => isWs_digit ((List.all_eq_true.mp (natToDec_digits e.mode)) c hc))
      hcsw]
    have hname : encStr cs = e.name := (utf8Chars_sound hcs).2
    rw [List.map_cons, List.map_cons, List.map_nil, encStr_ascii hdasc, hname]
  rw [fileFrom, stringFromUtf8, if_pos hvalid]
  simp only [hsplit, List.get?_cons_zero, List.get?_cons_succ,
    parseUsize_natToDec hmode]
  rfl

lemma zero_not_mem_header {e : File} (he : goodEntry e = true) :
    (0 : Nat) ∉ natToDec e.mode ++ 32 :: e.name := by
  obtain ⟨_, _, _, hname, _⟩ := goodEntry_spec he
  intro hmem
  rcases List.mem_append.mp hmem with h | h
  · have := natToDec_bytes h
    omega
  · rcases List.mem_cons.mp h with h | h
    · exact absurd h.symm (by omega)
    · exact hname 0 h rfl

lemma zero_not_mem_hash {e : File} (he : goodEntry e = true) :
    (0 : Nat) ∉ e.hash := by
  obtain ⟨_, hh, _⟩ := goodEntry_spec he
  intro hmem
  exact hh 0 hmem rfl

/-- Running the `Tree::from` fold over the encoded body of a list of
well-formed entries appends those entries to the accumulator. -/
lemma treeFold_run : ∀ (es : List File) (e : File) (acc : List File),
    goodEntry e = true → (∀ x ∈ es, goodEntry x = true) →
    treeFold (natToDec e.mode ++ 32 :: e.name)
      (splitOnByte 0 (e.hash ++ (es.map fileEncode).flatten)) acc
      = .ok (some ⟨acc ++ e :: es⟩) := by
  intro es
  induction es with
  | nil =>
    intro e acc he _
    obtain ⟨hlen, _, _⟩ := goodEntry_spec he
    simp only [List.map_nil, List.flatten_nil, List.append_nil]
    rw [splitOnByte_of_not_mem (zero_not_mem_hash he)]
    simp only [treeFold]
    rw [if_pos (by omega), List.take_of_length_le (by omega),
      fileFrom_header he]
  | cons e2 es' ih =>
    intro e acc he hes
    have he2 : goodEntry e2 = true := hes e2 (List.mem_cons_self e2 es')
    have hes' : ∀ x ∈ es', goodEntry x = true :=
      fun x hx => hes x (List.mem_cons_of_mem e2 hx)
    obtain ⟨hlen, _, _⟩ := goodEntry_spec he
    have hassoc : e.hash ++ ((e2 :: es').map fileEncode).flatten
        = (e.hash ++ (natToDec e2.mode ++ 32 :: e2.name)) ++
          0 :: (e2.hash ++ (es'.map fileEncode).flatten) := by
      simp only [List.map_cons, List.flatten_cons, fileEncode]
      simp only [List.append_assoc, List.cons_append, List.nil_append]
    have hnot : (0 : Nat) ∉ e.hash ++ (natToDec e2.mode ++ 32 :: e2.name) := by
      intro hmem
      rcases List.mem_append.mp hmem with h | h
      · exact zero_not_mem_hash he h
      · exact zero_not_mem_header he2 h
    rw [hassoc, splitOnByte_append hnot]
    simp only [treeFold]
    rw [if_pos (by simp; omega),
      List.take_left' hlen, List.drop_left' hlen, fileFrom_header he]
    dsimp only
    rw [ih e2 (acc ++ [e]) he2 hes']
    simp

/-- `Tree::from` run on the encoded entry body of a tree of well-formed
entries recovers the tree. -/
lemma treeFrom_body (t : Tree) (h : ∀ e ∈ t.contents, goodEntry e = true) :
    treeFrom (treeBody t) = .ok (some t) := by
  obtain ⟨es⟩ := t
  cases es with
  | nil => rfl
  | cons e es' =>
    have he : goodEntry e = true := h e (List.mem_cons_self e es')
    have hes : ∀ x ∈ es', goodEntry x = true :=
      fun x hx => h x (List.mem_cons_of_mem e hx)
    have hassoc : treeBody ⟨e :: es'⟩
        = (natToDec e.mode ++ 32 :: e.name) ++
          0 :: (e.hash ++ (es'.map fileEncode).flatten) := by
      simp only [treeBody, List.map_cons, List.flatten_cons, fileEncode]
      simp only [List.append_assoc, List.cons_append, List.nil_append]
    rw [treeFrom, hassoc, splitOnByte_append (zero_not_mem_header he)]
    simp only
    rw [treeFold_run es' e [] he hes]
    rfl

/-! ## Lemmas: commit parsing -/

/-- Claim C3 (amended): after the tree line, a next line that contains a
space (both pieces around the first space valid UTF-8) is consumed as the
parent reference exactly when its first space-separated token is `parent`
(the author line is then taken from the following line); otherwise no parent
is recorded and the very same line, byte for byte, becomes the author
source.  (A next line with no space makes `Commit::from` panic instead: see
the counterexample.) -/
theorem c3_parent_lookahead (t L : List Nat) (rest : List (List Nat))
    (p0 p1 : List Nat) (hsplit : L = p0 ++ 32 :: p1) (hp0 : (32 : Nat) ∉ p0)
    (hv0 : validUtf8 p0 = true) (hv1 : validUtf8 p1 = true) :
    commitFromLines (t :: L :: rest) =
      match stringFromUtf8 (afterFirstSpace t) with
      | none => .ok none
      | some tree =>
        if p0 = strb "parent" then commitTail tree (some p1) rest.head? rest.tail
        else commitTail tree none (some L) rest := by
  subst hsplit
  simp only [commitFromLines]
  cases htree : stringFromUtf8 (afterFirstSpace t) with
  | none => rfl
  | some tree =>
    simp only
    rw [splitn2_append hp0]
    simp only [fromUtf8OrDefault, if_pos hv0, if_pos hv1]

lemma stringFromUtf8_some {b s : List Nat} (h : stringFromUtf8 b = some s) :
    s = b := by
  unfold stringFromUtf8 at h
  by_cases hv : validUtf8 b = true
  · rw [if_pos hv] at h
    exact (Option.some.injEq _ _ ▸ h).symm
  · rw [if_neg hv] at h
    exact absurd h (by simp)

/-- A successfully decoded commit takes its message from one of the
remaining lines handed to `commitTail`. -/
lemma commitTail_message {tree : List Nat} {parent : Option (List Nat)}
    {al : Option (List Nat)} {rem : List (List Nat)} {c : Commit}
    (h : commitTail tree parent al rem = .ok (some c)) :
    ∃ ml ∈ rem, c.message = ml := by
  unfold commitTail at h
  cases al with
  | none => exact absurd h (by simp)
  | some al =>
    dsimp only at h
    cases ha : userFrom (afterFirstSpace al) with
    | panicked => rw [ha] at h; exact absurd h (by simp)
    | ok oa =>
      rw [ha] at h
      cases oa with
      | none => exact absurd h (by simp)
      | some author =>
        dsimp only at h
        cases rem with
        | nil => exact absurd h (by simp)
        | cons cl rem2 =>
          dsimp only at h
          cases hcm : userFrom (afterFirstSpace cl) with
          | panicked => rw [hcm] at h; exact absurd h (by simp)
          | ok oc =>
            rw [hcm] at h
            cases oc with
            | none => exact absurd h (by simp)
            | some committer =>
              dsimp only at h
              cases rem2 with
              | nil => exact absurd h (by simp)
              | cons ml rem3 =>
                dsimp only at h
                cases hms : stringFromUtf8 ml with
                | none => rw [hms] at h; exact absurd h (by simp)
                | some msg =>
                  rw [hms] at h
                  simp only [RunResult.ok.injEq, Option.some.injEq] at h
                  refine ⟨ml, List.mem_cons_of_mem cl (List.mem_cons_self ml rem3), ?_⟩
                  rw [← h]
                  exact stringFromUtf8_some hms

/-- A successfully decoded commit takes its message from one of the input
lines. -/
lemma commitFromLines_message {ls : List (List Nat)} {c : Commit}
    (h : commitFromLines ls = .ok (some c)) : ∃ ml ∈ ls, c.message = ml := by
  unfold commitFromLines at h
  cases ls with
  | nil => exact absurd h (by simp)
  | cons treeLine rest =>
    dsimp only at h
    cases ht : stringFromUtf8 (afterFirstSpace treeLine) with
    | none => rw [ht] at h; exact absurd h (by simp)
    | some tree =>
      rw [ht] at h
      dsimp only at h
      cases rest with
      | nil =>
        obtain ⟨ml, hml, _⟩ := commitTail_message h
        exact absurd hml (List.not_mem_nil ml)
      | cons l rest2 =>
        dsimp only at h
        cases hp : (splitn2 32 l).2 with
        | none => rw [hp] at h; exact absurd h (by simp)
        | some x1 =>
          rw [hp] at h
          dsimp only at h
          by_cases hpar : fromUtf8OrDefault (splitn2 32 l).1 = strb "parent"
          · rw [if_pos hpar] at h
            obtain ⟨ml, hml, hmsg⟩ := commitTail_message h
            exact ⟨ml, List.mem_cons_of_mem treeLine
              (List.mem_cons_of_mem l (List.mem_of_mem_tail hml)), hmsg⟩
          · rw [if_neg hpar] at h
            obtain ⟨ml, hml, hmsg⟩ := commitTail_message h
            exact ⟨ml, List.mem_cons_of_mem treeLine
              (List.mem_cons_of_mem l hml), hmsg⟩

/-! ## Claim theorems -/

/-- Claim C1 (counterexample): `Tree::from` applied to the output of
`Tree::as_bytes` does not return `Some(t)`; the `"tree {len}"` header text
becomes the first entry header and the following short segment makes
`split_at(20)` panic.  This refutes
`Tree::from(Tree::as_bytes(t)) == Some(t)` at a concrete one-entry tree. -/
theorem c1_asBytes_decode_panics :
    treeFrom (treeAsBytes ⟨[⟨100644, strb "a.txt", List.replicate 20 1⟩]⟩)
        = .panicked ∧
      RunResult.panicked
        ≠ .ok (some (⟨[⟨100644, strb "a.txt", List.replicate 20 1⟩]⟩ : Tree)) :=
  ⟨by decide, by decide⟩

/-- Claim C1 (amended): for a tree of unambiguous entries, `as_bytes` is the
`"tree {len}\0"` header followed by the entry body, and `Tree::from` applied
to that entry body (the bytes after the header) returns the tree itself. -/
theorem c1_tree_body_roundtrip (t : Tree)
    (h : ∀ e ∈ t.contents, goodEntry e = true) :
    treeAsBytes t = strb "tree " ++ natToDec (treeBody t).length ++ 0 :: treeBody t
      ∧ treeFrom (treeBody t) = .ok (some t) :=
  ⟨rfl, treeFrom_body t h⟩

/-- Witness for C1 (amended) at a concrete two-entry tree. -/
theorem c1_tree_body_roundtrip_witness :
    treeAsBytes sampleTree
        = strb "tree " ++ natToDec (treeBody sampleTree).length
          ++ 0 :: treeBody sampleTree
      ∧ treeFrom (treeBody sampleTree) = .ok (some sampleTree) :=
  c1_tree_body_roundtrip sampleTree (by decide)

/-- Claim C2: on a buffer whose post-delimiter segment is shorter than the
20 bytes a hash needs (here the empty segment after `"0 a\0"`), `Tree::from`
panics via `split_at(20)` instead of returning `None` — the code violates
the claim's no-panic requirement. -/
theorem c2_truncated_hash_panics :
    treeFrom (strb "0 a" ++ [0]) = .panicked := by decide

/-- Claim C3 (counterexample): when the line after the tree line contains no
space, the claim says it is reinterpreted as the author line; the code
instead panics on the out-of-bounds `x[1]` index. -/
theorem c3_no_space_line_panics :
    commitFrom (strb "tree t\nx") = .panicked := by decide

/-- Witness for C3 (amended) at a concrete parent line. -/
theorem c3_parent_lookahead_witness :
    commitFromLines [strb "tree t", strb "parent p"] = .ok none := by
  rw [c3_parent_lookahead (strb "tree t") (strb "parent p") []
    (strb "parent") (strb "p") (by decide) (by decide) (by decide) (by decide)]
  decide

/-- Claim C4 (counterexample): a commit whose message spans two lines
decodes with only the first line as the message; the remaining line is not
rejoined, refuting "the decoded message consists of all remaining
unconsumed bytes after the committer line, rejoined". -/
theorem c4_multiline_message_lost :
    commitFrom sampleCommitBuf = .ok (some sampleCommit)
      ∧ sampleCommit.message = strb "line1"
      ∧ strb "line1" ≠ strb "line1\nline2" :=
  ⟨by decide, by decide, by decide⟩

/-- Claim C4 (amended): the decoded message is a single line — the first
non-empty line after the committer line — so it is non-empty and contains
no newline byte; a multi-line message is not recovered. -/
theorem c4_message_single_line (bytes : List Nat) (c : Commit)
    (h : commitFrom bytes = .ok (some c)) :
    (10 : Nat) ∉ c.message ∧ c.message ≠ [] := by
  unfold commitFrom at h
  obtain ⟨ml, hml, hmsg⟩ := commitFromLines_message h
  rw [List.mem_filter] at hml
  constructor
  · rw [hmsg]
    exact not_mem_of_mem_splitOnByte hml.1
  · rw [hmsg]
    simpa using hml.2

/-- Witness for C4 (amended) at a concrete commit buffer. -/
theorem c4_message_single_line_witness :
    (10 : Nat) ∉ sampleCommit.message ∧ sampleCommit.message ≠ [] :=
  c4_message_single_line sampleCommitBuf sampleCommit (by decide)

/-- Claim C5: for the offset token `-500` the decoded offset is `+18000`
seconds (UTC+05:00) — `FixedOffset::west(x/100*60*60)` with negative `x`
negates an already negative second count — and for `+0530` the minutes are
dropped (`x/100` keeps only the hours), also giving `+18000` instead of
`+19800`.  The claim (sign matching `d`, minutes from the tens/units) says
these should be `-18000` and `+19800`. -/
theorem c5_offset_sign_and_minutes_bug :
    userFrom (strb "a <e> 0 -500") = .ok (some ⟨strb "a", strb "e", 0, 18000⟩)
      ∧ userFrom (strb "a <e> 0 +0530")
        = .ok (some ⟨strb "a", strb "e", 0, 18000⟩)
      ∧ (18000 : Int) ≠ -18000 ∧ (18000 : Int) ≠ 19800 :=
  ⟨by decide, by decide, by decide, by decide⟩

set_option maxRecDepth 10000 in
/-- Claim C6: `Blob::new("hi").as_bytes()` is exactly the 9 bytes of
`"blob 2\0hi"`, and `calc_hash` is the SHA-1 digest of exactly those 9
bytes (also evaluated against the known digest value). -/
theorem c6_blob_hi :
    blobAsBytes (blobNew (strb "hi")) = strb "blob 2" ++ 0 :: strb "hi"
      ∧ (blobAsBytes (blobNew (strb "hi"))).length = 9
      ∧ blobCalcHash (blobNew (strb "hi")) = sha1 (strb "blob 2" ++ 0 :: strb "hi")
      ∧ sha1 (strb "blob 2" ++ 0 :: strb "hi")
        = [50, 249, 92, 13, 18, 68, 167, 139, 43, 225, 186, 184, 222, 23, 144,
           111, 171, 178, 196, 168] :=
  ⟨by decide, by decide, by decide, by decide⟩

/-- Claim C7: `Blob::from(b)` succeeds exactly when `b` is valid UTF-8 text
(`IsUtf8`, the spec-side encoding predicate); on success the whole buffer is
the content (no header stripped) and the size is the content's byte
length. -/
theorem c7_blob_from_iff (bytes : List Nat) (bl : Blob) :
    blobFrom bytes = some bl ↔ (IsUtf8 bytes ∧ bl = ⟨bytes.length, bytes⟩) := by
  constructor
  · intro h
    unfold blobFrom at h
    cases hs : stringFromUtf8 bytes with
    | none => rw [hs] at h; exact absurd h (by simp)
    | some content =>
      rw [hs] at h
      dsimp only at h
      have hcb : content = bytes := stringFromUtf8_some hs
      have hv : validUtf8 bytes = true := by
        unfold stringFromUtf8 at hs
        by_cases hv : validUtf8 bytes = true
        · exact hv
        · rw [if_neg hv] at hs
          exact absurd hs (by simp)
      rw [validUtf8, Option.isSome_iff_exists] at hv
      obtain ⟨cs, hcs⟩ := hv
      obtain ⟨hsc, henc⟩ := utf8Chars_sound hcs
      refine ⟨⟨cs, hsc, henc.symm⟩, ?_⟩
      have hbl : Blob.mk content.length content = bl := by
        simpa using h
      rw [← hbl, hcb]
  · rintro ⟨⟨cs, hsc, henc⟩, rfl⟩
    have hdec : utf8Chars bytes = some cs := by
      rw [henc]
      exact utf8Chars_encStr hsc
    unfold blobFrom stringFromUtf8
    rw [if_pos (by rw [validUtf8, hdec]; rfl)]

/-- Claim C8 (counterexample): a header with three whitespace-separated
tokens is accepted (extra tokens are silently ignored), refuting "succeeds
exactly when the header splits into exactly a mode token and a name
token". -/
theorem c8_extra_token_accepted :
    fileFrom (strb "1 a b") [] = some ⟨1, strb "a", []⟩
      ∧ splitWhitespace (strb "1 a b") = [strb "1", strb "a", strb "b"] :=
  ⟨by decide, by decide⟩

/-- Claim C8 (amended): `File::from(header, hash)` succeeds exactly when the
header is valid UTF-8 and splits on whitespace into a first token that
parses as a non-negative 64-bit integer and at least one further token; the
second token is the name and any remaining tokens are ignored. -/
theorem c8_fileFrom_iff (header hash : List Nat) (f : File) :
    fileFrom header hash = some f ↔
      (validUtf8 header = true ∧
        ∃ t0 rest, splitWhitespace header = t0 :: f.name :: rest
          ∧ parseUsize t0 = some f.mode ∧ hash = f.hash) := by
  constructor
  · intro h
    unfold fileFrom at h
    cases hs : stringFromUtf8 header with
    | none => rw [hs] at h; exact absurd h (by simp)
    | some s =>
      rw [hs] at h
      dsimp only at h
      have hsb : s = header := stringFromUtf8_some hs
      have hv : validUtf8 header = true := by
        unfold stringFromUtf8 at hs
        by_cases hv : validUtf8 header = true
        · exact hv
        · rw [if_neg hv] at hs
          exact absurd hs (by simp)
      subst hsb
      refine ⟨hv, ?_⟩
      cases htoks : splitWhitespace s with
      | nil => rw [htoks] at h; exact absurd h (by simp)
      | cons t0 tl =>
        rw [htoks] at h
        simp only [List.get?_cons_zero] at h
        cases hm : parseUsize t0 with
        | none => rw [hm] at h; exact absurd h (by simp)
        | some mode =>
          rw [hm] at h
          dsimp only at h
          cases tl with
          | nil => exact absurd h (by simp)
          | cons t1 rest =>
            simp only [List.get?_cons_succ, List.get?_cons_zero] at h
            simp only [fileNew, Option.some.injEq] at h
            subst h
            exact ⟨t0, rest, rfl, hm, rfl⟩
  · rintro ⟨hv, t0, rest, htoks, hmode, rfl⟩
    unfold fileFrom stringFromUtf8
    rw [if_pos hv]
    dsimp only
    rw [htoks]
    simp only [List.get?_cons_zero, List.get?_cons_succ, hmode]
    rfl

/-- Claim C9: a buffer with no null byte (the empty buffer included)
decodes as a tree with no entries: the whole buffer becomes the pending
first header and the fold has no segment to consume. -/
theorem c9_no_null_empty_tree (bytes : List Nat) (h : (0 : Nat) ∉ bytes) :
    treeFrom bytes = .ok (some ⟨[]⟩) := by
  rw [treeFrom, splitOnByte_of_not_mem h]
  rfl

/-- Witness for C9 at a concrete null-free buffer. -/
theorem c9_no_null_empty_tree_witness :
    treeFrom (strb "abc") = .ok (some ⟨[]⟩) :=
  c9_no_null_empty_tree (strb "abc") (by decide)

/-- Claim C10: `File::from` stores the hash argument unchanged whatever its
length, and `File::encode` appends the stored hash bytes unchanged after the
`"{mode} {name}\0"` header. -/
theorem c10_hash_unconstrained (header hash : List Nat) (f : File) :
    (fileFrom header hash = some f → f.hash = hash)
      ∧ fileEncode f = (natToDec f.mode ++ 32 :: f.name ++ [0]) ++ f.hash := by
  constructor
  · intro h
    unfold fileFrom at h
    cases hs : stringFromUtf8 header with
    | none => rw [hs] at h; exact absurd h (by simp)
    | some s =>
      rw [hs] at h
      dsimp only at h
      cases ht0 : (splitWhitespace s).get? 0 with
      | none => rw [ht0] at h; exact absurd h (by simp)
      | some t0 =>
        rw [ht0] at h
        dsimp only at h
        cases hm : parseUsize t0 with
        | none => rw [hm] at h; exact absurd h (by simp)
        | some mode =>
          rw [hm] at h
          dsimp only at h
          cases ht1 : (splitWhitespace s).get? 1 with
          | none => rw [ht1] at h; exact absurd h (by simp)
          | some t1 =>
            rw [ht1] at h
            simp only [fileNew, Option.some.injEq] at h
            rw [← h]
  · rfl

/-- Witness for C10 at a 3-byte (non-20-byte) hash. -/
theorem c10_hash_unconstrained_witness :
    ((⟨7, strb "nm", strb "xyz"⟩ : File).hash = strb "xyz")
      ∧ fileEncode ⟨7, strb "nm", strb "xyz"⟩
        = (natToDec 7 ++ 32 :: strb "nm" ++ [0]) ++ strb "xyz" :=
  ⟨(c10_hash_unconstrained (strb "7 nm") (strb "xyz")
      ⟨7, strb "nm", strb "xyz"⟩).1 (by decide),
   (c10_hash_unconstrained (strb "7 nm") (strb "xyz")
      ⟨7, strb "nm", strb "xyz"⟩).2⟩

end ToyGit
